import Mathlib

/-!
Shallow embedding of `src/pg_rand_ext.c`: a PostgreSQL extension exposing
three non-uniform random samplers (exponential, gaussian, zipfian) built on
the pgbench algorithms.  C `double` arithmetic is modelled over `ℝ`;
`int64` over `ℤ`; the uniform source `pg_erand48` (an external PostgreSQL
library routine) is modelled abstractly as a state-advancing draw function,
and the streams of values it returns are passed to the samplers.  The C
cast `(int64) d` (truncation toward zero) is modelled by `dtrunc`.
Rejection loops are given explicit fuel and return `none` when the fuel
runs out; `elog(ERROR, ...)` is modelled by `Except.error`.
-/

/-- Error outcomes surfaced by `elog(ERROR, ...)` in the C code, named after
the spec's error taxonomy. -/
inductive RandErr
  | invalidParameter
  | invalidRange
  | seedingFailed
deriving DecidableEq

/-- Mirrors `typedef struct RandomState { unsigned short xseed[3]; }`. -/
structure RandomState where
  x0 : ℕ
  x1 : ℕ
  x2 : ℕ
deriving DecidableEq

/-- C cast `(int64) d`: truncation toward zero. -/
noncomputable def dtrunc (r : ℝ) : ℤ :=
  if 0 ≤ r then ⌊r⌋ else -⌊-r⌋

/-- Splitting of the entropy word into the three 16-bit state words, as in
the body of `initRandomState`:
`xseed[0] = iseed & 0xFFFF; xseed[1] = (iseed >> 16) & 0xFFFF;`
`xseed[2] = (iseed >> 32) & 0xFFFF`. -/
def seedState (iseed : ℕ) : RandomState :=
  ⟨iseed &&& 0xFFFF, (iseed >>> 16) &&& 0xFFFF, (iseed >>> 32) &&& 0xFFFF⟩

/-- Mirrors `initRandomState`: obtain entropy via `pg_strong_random` (an
external source, modelled as an `Option ℕ` input: `none` means the entropy
source is unavailable), failing with `elog(ERROR, "could not generate
random seed")` when it fails, otherwise filling the state words from the
low-order bits of the seed. -/
def initRandomState (entropy : Option ℕ) : Except RandErr RandomState :=
  match entropy with
  | none => .error .seedingFailed
  | some iseed => .ok (seedState iseed)

/-- Successive values returned by repeated calls to the abstract uniform
source `er : RandomState → ℝ × RandomState` (modelling `pg_erand48`, which
returns a double and advances the state in place), starting from state
`st`:  `streamOf er st k` is the value of the `(k+1)`-st draw. -/
def streamOf (er : RandomState → ℝ × RandomState) (st : RandomState) : ℕ → ℝ
  | 0 => (er st).1
  | k + 1 => streamOf er (er st).2 k

/-- Mirrors `getExponentialRand`: `cut = exp(-parameter)`;
`uniform = 1.0 - pg_erand48(...)`;
`rand = -log(cut + (1.0 - cut) * uniform) / parameter`;
`return min + (int64) ((max - min + 1) * rand)`.
The single uniform draw is the argument `u`. -/
noncomputable def getExponentialRand (u : ℝ) (lo hi : ℤ) (parameter : ℝ) : ℤ :=
  let cut := Real.exp (-parameter)
  let uniform := 1 - u
  let rand := -Real.log (cut + (1 - cut) * uniform) / parameter
  lo + dtrunc (((hi - lo + 1 : ℤ) : ℝ) * rand)

/-- Box-Muller basic form transform of one loop iteration of
`getGaussianRand`: `var_sqrt = sqrt(-2.0 * log(rand1))`;
`stdev = var_sqrt * sin(2.0 * M_PI * rand2)`, where `rand1, rand2` are the
two `1.0 - pg_erand48(...)` values. -/
noncomputable def gaussStdev (rand1 rand2 : ℝ) : ℝ :=
  Real.sqrt (-2 * Real.log rand1) * Real.sin (2 * Real.pi * rand2)

/-- The `stdev` computed by iteration `k` of the `getGaussianRand` loop:
iteration `k` consumes draws `2k` and `2k+1` of the uniform stream and
negates both to `(0, 1]` by `1.0 - draw`. -/
noncomputable def gaussStdevAt (us : ℕ → ℝ) (k : ℕ) : ℝ :=
  gaussStdev (1 - us (2 * k)) (1 - us (2 * k + 1))

/-- The `do ... while` guard of `getGaussianRand`:
`while (stdev < -parameter || stdev >= parameter)`; iteration repeats
exactly when this holds. -/
def gaussReject (parameter stdev : ℝ) : Prop :=
  stdev < -parameter ∨ stdev ≥ parameter

open Classical in
/-- The rejection loop of `getGaussianRand`, with explicit fuel: iteration
`k` computes `stdev` from fresh draws `2k, 2k+1` and exits the loop with
that `stdev` unless the `while` guard rejects it. -/
noncomputable def gaussianLoop (us : ℕ → ℝ) (parameter : ℝ) : ℕ → ℕ → Option ℝ
  | _, 0 => none
  | k, fuel + 1 =>
    if gaussReject parameter (gaussStdevAt us k) then
      gaussianLoop us parameter (k + 1) fuel
    else
      some (gaussStdevAt us k)

/-- Mirrors `getGaussianRand`: run the rejection loop, then
`rand = (stdev + parameter) / (parameter * 2.0)` and
`return min + (int64) ((max - min + 1) * rand)`. -/
noncomputable def getGaussianRand (us : ℕ → ℝ) (lo hi : ℤ) (parameter : ℝ)
    (fuel : ℕ) : Option ℤ :=
  (gaussianLoop us parameter 0 fuel).map fun stdev =>
    let rand := (stdev + parameter) / (parameter * 2)
    lo + dtrunc (((hi - lo + 1 : ℤ) : ℝ) * rand)

/-- The acceptance test of one iteration of `computeIterativeZipfian`:
`b = pow(2.0, s - 1.0)`; `x = floor(pow(u, -1.0 / (s - 1.0)))`;
`t = pow(1.0 + 1.0 / x, s - 1.0)`; the loop exits when
`v * x * (t - 1.0) / (b - 1.0) <= t / b && x <= n`. -/
noncomputable def zipfAccept (n : ℤ) (s u v : ℝ) : Prop :=
  let b : ℝ := (2 : ℝ) ^ (s - 1)
  let x : ℝ := ((⌊u ^ (-1 / (s - 1))⌋ : ℤ) : ℝ)
  let t : ℝ := (1 + 1 / x) ^ (s - 1)
  v * x * (t - 1) / (b - 1) ≤ t / b ∧ x ≤ (n : ℝ)

open Classical in
/-- The `while (true)` rejection loop of `computeIterativeZipfian`, with
explicit fuel: iteration `k` draws `u = us (2k)` and `v = us (2k+1)` and
exits returning `(int64) x` when the acceptance test passes, otherwise
redraws both uniforms. -/
noncomputable def zipfLoop (us : ℕ → ℝ) (n : ℤ) (s : ℝ) : ℕ → ℕ → Option ℤ
  | _, 0 => none
  | k, fuel + 1 =>
    if zipfAccept n s (us (2 * k)) (us (2 * k + 1)) then
      some ⌊(us (2 * k)) ^ (-1 / (s - 1))⌋
    else
      zipfLoop us n s (k + 1) fuel

/-- Mirrors `computeIterativeZipfian`: `if (n <= 1) return 1;` then the
Devroye rejection loop. -/
noncomputable def computeIterativeZipfian (us : ℕ → ℝ) (n : ℤ) (s : ℝ)
    (fuel : ℕ) : Option ℤ :=
  if n ≤ 1 then some 1 else zipfLoop us n s 0 fuel

/-- Mirrors `getZipfianRand`: `n = max - min + 1`;
`return min - 1 + computeIterativeZipfian(random_state, n, s)`. -/
noncomputable def getZipfianRand (us : ℕ → ℝ) (lo hi : ℤ) (s : ℝ)
    (fuel : ℕ) : Option ℤ :=
  (computeIterativeZipfian us (hi - lo + 1) s fuel).map fun x => lo - 1 + x

/-- Mirrors the SQL entry point `random_exponential`: reseed the shared
global state `base_random_sequence` (whose prior value `g` is overwritten
unread), then sample.  The exponential sampler consumes exactly the first
draw from the freshly seeded state. -/
noncomputable def random_exponential (er : RandomState → ℝ × RandomState)
    (entropy : Option ℕ) (g : RandomState) (lb ub : ℤ) (param : ℝ) :
    Except RandErr ℤ :=
  (initRandomState entropy).map fun st =>
    getExponentialRand (streamOf er st 0) lb ub param

/-- Mirrors the SQL entry point `random_gaussian`: reseed the shared global
state (prior value `g` overwritten unread), then sample from the stream of
draws out of the freshly seeded state. -/
noncomputable def random_gaussian (er : RandomState → ℝ × RandomState)
    (entropy : Option ℕ) (g : RandomState) (lb ub : ℤ) (param : ℝ)
    (fuel : ℕ) : Except RandErr (Option ℤ) :=
  (initRandomState entropy).map fun st =>
    getGaussianRand (streamOf er st) lb ub param fuel

/-- Mirrors the SQL entry point `random_zipfian`:
`if (param < MIN_ZIPFIAN_PARAM || param > MAX_ZIPFIAN_PARAM) elog(ERROR, ...)`
before reseeding; otherwise reseed the shared global state (prior value `g`
overwritten unread) and sample. -/
noncomputable def random_zipfian (er : RandomState → ℝ × RandomState)
    (entropy : Option ℕ) (g : RandomState) (lb ub : ℤ) (param : ℝ)
    (fuel : ℕ) : Except RandErr (Option ℤ) :=
  if param < 1.001 ∨ param > 1000.0 then .error .invalidParameter
  else
    (initRandomState entropy).map fun st =>
      getZipfianRand (streamOf er st) lb ub param fuel

/-- Constant uniform source used for concrete witnesses: every draw
returns `1/2` and leaves the state unchanged. -/
noncomputable def erHalf : RandomState → ℝ × RandomState :=
  fun st => (1 / 2, st)

/-- Constant uniform stream used for concrete witnesses. -/
noncomputable def usHalf : ℕ → ℝ :=
  fun _ => 1 / 2

/-! ## Helper lemmas -/

theorem dtrunc_of_nonneg {r : ℝ} (h : 0 ≤ r) : dtrunc r = ⌊r⌋ := if_pos h

theorem rangeMap_mem {lo hi : ℤ} {r : ℝ} (hlh : lo ≤ hi) (h0 : 0 ≤ r)
    (h1 : r < 1) :
    lo + dtrunc (((hi - lo + 1 : ℤ) : ℝ) * r) ∈ Set.Icc lo hi := by
  have hn : (0 : ℝ) ≤ ((hi - lo + 1 : ℤ) : ℝ) := by
    have h : (0 : ℤ) ≤ hi - lo + 1 := by omega
    exact_mod_cast h
  have hprod0 : 0 ≤ ((hi - lo + 1 : ℤ) : ℝ) * r := mul_nonneg hn h0
  rw [dtrunc_of_nonneg hprod0]
  constructor
  · have h := Int.floor_nonneg.mpr hprod0
    omega
  · have hnpos : (0 : ℝ) < ((hi - lo + 1 : ℤ) : ℝ) := by
      have h : (0 : ℤ) < hi - lo + 1 := by omega
      exact_mod_cast h
    have hlt : ((hi - lo + 1 : ℤ) : ℝ) * r < ((hi - lo + 1 : ℤ) : ℝ) := by
      nlinarith
    have h := Int.floor_lt.mpr hlt
    omega

theorem expRand_mem {p u : ℝ} (hp : p ≠ 0) (hu0 : 0 ≤ u) (hu1 : u < 1) :
    -Real.log (Real.exp (-p) + (1 - Real.exp (-p)) * (1 - u)) / p ∈
      Set.Ico (0 : ℝ) 1 := by
  have hcpos : 0 < Real.exp (-p) := Real.exp_pos _
  have hlc : Real.log (Real.exp (-p)) = -p := Real.log_exp _
  have hw0 : 0 < 1 - u := by linarith
  have hw1 : 1 - u ≤ 1 := by linarith
  rcases hp.lt_or_lt with hneg | hpos
  · have hc1 : 1 < Real.exp (-p) := by
      calc (1 : ℝ) = Real.exp 0 := Real.exp_zero.symm
        _ < Real.exp (-p) := Real.exp_lt_exp.mpr (by linarith)
    have h1inner : 1 ≤ Real.exp (-p) + (1 - Real.exp (-p)) * (1 - u) := by
      nlinarith
    have hinnerc :
        Real.exp (-p) + (1 - Real.exp (-p)) * (1 - u) < Real.exp (-p) := by
      nlinarith
    have hlog0 := Real.log_nonneg h1inner
    have hlogc := Real.log_lt_log (by linarith) hinnerc
    rw [hlc] at hlogc
    have hdiv :
        -Real.log (Real.exp (-p) + (1 - Real.exp (-p)) * (1 - u)) / p =
          Real.log (Real.exp (-p) + (1 - Real.exp (-p)) * (1 - u)) / (-p) := by
      ring
    rw [hdiv]
    constructor
    · exact div_nonneg hlog0 (by linarith)
    · rw [div_lt_one (by linarith)]
      linarith
  · have hc1 : Real.exp (-p) < 1 := by
      calc Real.exp (-p) < Real.exp 0 := Real.exp_lt_exp.mpr (by linarith)
        _ = 1 := Real.exp_zero
    have hinnerc :
        Real.exp (-p) < Real.exp (-p) + (1 - Real.exp (-p)) * (1 - u) := by
      nlinarith
    have hinner1 : Real.exp (-p) + (1 - Real.exp (-p)) * (1 - u) ≤ 1 := by
      nlinarith
    have hlog0 := Real.log_nonpos (by linarith) hinner1
    have hlogc := Real.log_lt_log hcpos hinnerc
    rw [hlc] at hlogc
    constructor
    · exact div_nonneg (by linarith) hpos.le
    · rw [div_lt_one hpos]
      linarith

theorem not_gaussReject_iff {p st : ℝ} :
    ¬ gaussReject p st ↔ -p ≤ st ∧ st < p := by
  unfold gaussReject
  rw [not_or, not_lt, ge_iff_le, not_le]

theorem gaussRand_mem {p st : ℝ} (h1 : -p ≤ st) (h2 : st < p) :
    (st + p) / (p * 2) ∈ Set.Ico (0 : ℝ) 1 := by
  have hp : 0 < p := by linarith
  constructor
  · exact div_nonneg (by linarith) (by linarith)
  · rw [div_lt_one (by linarith)]
    linarith

theorem gaussianLoop_eq_some {us : ℕ → ℝ} {p : ℝ} {k fuel : ℕ} {st : ℝ}
    (h : gaussianLoop us p k fuel = some st) :
    ∃ j, k ≤ j ∧
      (∀ i, k ≤ i → i < j → gaussReject p (gaussStdevAt us i)) ∧
      ¬ gaussReject p (gaussStdevAt us j) ∧ st = gaussStdevAt us j := by
  induction fuel generalizing k with
  | zero => simp [gaussianLoop] at h
  | succ fuel ih =>
    rw [gaussianLoop] at h
    by_cases hrej : gaussReject p (gaussStdevAt us k)
    · rw [if_pos hrej] at h
      obtain ⟨j, hkj, hall, hacc, hst⟩ := ih h
      refine ⟨j, by omega, ?_, hacc, hst⟩
      intro i hki hij
      rcases eq_or_lt_of_le hki with heq | hlt
      · rw [← heq]
        exact hrej
      · exact hall i (by omega) hij
    · rw [if_neg hrej] at h
      refine ⟨k, le_refl k, ?_, hrej, (Option.some_inj.mp h).symm⟩
      intro i hki hij
      omega

theorem zipfLoop_eq_some {us : ℕ → ℝ} {n : ℤ} {s : ℝ} {k fuel : ℕ} {x : ℤ}
    (h : zipfLoop us n s k fuel = some x) :
    ∃ j, k ≤ j ∧
      (∀ i, k ≤ i → i < j → ¬ zipfAccept n s (us (2 * i)) (us (2 * i + 1))) ∧
      zipfAccept n s (us (2 * j)) (us (2 * j + 1)) ∧
      x = ⌊(us (2 * j)) ^ (-1 / (s - 1))⌋ := by
  induction fuel generalizing k with
  | zero => simp [zipfLoop] at h
  | succ fuel ih =>
    rw [zipfLoop] at h
    by_cases hacc : zipfAccept n s (us (2 * k)) (us (2 * k + 1))
    · rw [if_pos hacc] at h
      refine ⟨k, le_refl k, ?_, hacc, (Option.some_inj.mp h).symm⟩
      intro i hki hij
      omega
    · rw [if_neg hacc] at h
      obtain ⟨j, hkj, hall, hj, hx⟩ := ih h
      refine ⟨j, by omega, ?_, hj, hx⟩
      intro i hki hij
      rcases eq_or_lt_of_le hki with heq | hlt
      · rw [← heq]
        exact hacc
      · exact hall i (by omega) hij

theorem zipfAccept_rank_bounds {n : ℤ} {s u v : ℝ} (hs : 1.001 ≤ s)
    (hu0 : 0 < u) (hu1 : u < 1) (h : zipfAccept n s u v) :
    1 ≤ ⌊u ^ (-1 / (s - 1))⌋ ∧ ⌊u ^ (-1 / (s - 1))⌋ ≤ n := by
  have hs1 : (1 : ℝ) < s := lt_of_lt_of_le (by norm_num) hs
  have he : (-1 / (s - 1) : ℝ) < 0 :=
    div_neg_of_neg_of_pos (by norm_num) (by linarith)
  have hxgt : 1 < u ^ (-1 / (s - 1)) :=
    (Real.one_lt_rpow_iff_of_pos hu0).mpr (Or.inr ⟨hu1, he⟩)
  have h1 : (1 : ℤ) ≤ ⌊u ^ (-1 / (s - 1))⌋ := by
    rw [Int.le_floor]
    exact_mod_cast hxgt.le
  refine ⟨h1, ?_⟩
  have h2 : ((⌊u ^ (-1 / (s - 1))⌋ : ℤ) : ℝ) ≤ (n : ℝ) := h.2
  exact_mod_cast h2

/-! ## Concrete evaluation helpers -/

theorem streamOf_erHalf (st : RandomState) (k : ℕ) :
    streamOf erHalf st k = 1 / 2 := by
  induction k generalizing st with
  | zero => rfl
  | succ k ih => exact ih ((erHalf st).2)

theorem streamOf_erHalf_eq (st : RandomState) : streamOf erHalf st = usHalf :=
  funext fun k => streamOf_erHalf st k

theorem gaussStdevAt_usHalf (k : ℕ) : gaussStdevAt usHalf k = 0 := by
  show gaussStdev (1 - usHalf (2 * k)) (1 - usHalf (2 * k + 1)) = 0
  show Real.sqrt (-2 * Real.log (1 - 1 / 2)) *
    Real.sin (2 * Real.pi * (1 - 1 / 2)) = 0
  have h : 2 * Real.pi * (1 - 1 / 2 : ℝ) = Real.pi := by ring
  rw [h, Real.sin_pi, mul_zero]

theorem gaussianLoop_usHalf {p : ℝ} (hp : ¬ gaussReject p 0) (fuel : ℕ) :
    gaussianLoop usHalf p 0 (fuel + 1) = some 0 := by
  rw [gaussianLoop, gaussStdevAt_usHalf, if_neg hp]

theorem getGaussianRand_usHalf {p : ℝ} (hp : ¬ gaussReject p 0)
    (lo hi : ℤ) (fuel : ℕ) :
    getGaussianRand usHalf lo hi p (fuel + 1) =
      some (lo + dtrunc (((hi - lo + 1 : ℤ) : ℝ) * ((0 + p) / (p * 2)))) := by
  rw [getGaussianRand, gaussianLoop_usHalf hp]
  rfl

theorem floor_half : ⌊(1 / 2 : ℝ)⌋ = 0 := by
  rw [Int.floor_eq_zero_iff]
  constructor
  · norm_num
  · norm_num

theorem getGaussianRand_usHalf_11 :
    getGaussianRand usHalf 1 1 2 1 = some 1 := by
  have hp : ¬ gaussReject (2 : ℝ) 0 := by
    rw [not_gaussReject_iff]
    norm_num
  rw [show (1 : ℕ) = 0 + 1 from rfl, getGaussianRand_usHalf hp]
  have h : (((1 : ℤ) - 1 + 1 : ℤ) : ℝ) * ((0 + 2) / (2 * 2)) = 1 / 2 := by
    norm_num
  rw [h, dtrunc_of_nonneg (by norm_num), floor_half]
  norm_num

theorem getGaussianRand_usHalf_13 :
    getGaussianRand usHalf 1 3 2 1 = some 2 := by
  have hp : ¬ gaussReject (2 : ℝ) 0 := by
    rw [not_gaussReject_iff]
    norm_num
  rw [show (1 : ℕ) = 0 + 1 from rfl, getGaussianRand_usHalf hp]
  have h : (((3 : ℤ) - 1 + 1 : ℤ) : ℝ) * ((0 + 2) / (2 * 2)) = 3 / 2 := by
    norm_num
  rw [h, dtrunc_of_nonneg (by norm_num)]
  have hf : ⌊(3 / 2 : ℝ)⌋ = 1 := by
    rw [Int.floor_eq_iff]
    norm_num
  rw [hf]
  norm_num

theorem rpow_half_exp : ((1 : ℝ) / 2) ^ ((-1 : ℝ) / (2 - 1)) = 2 := by
  have he : ((-1 : ℝ) / (2 - 1)) = -1 := by norm_num
  rw [he, Real.rpow_neg (by norm_num : (0 : ℝ) ≤ 1 / 2), Real.rpow_one]
  norm_num

theorem floor_two : ⌊(2 : ℝ)⌋ = 2 := by
  rw [Int.floor_eq_iff]
  norm_num

theorem zipfAccept_half : zipfAccept 3 2 (1 / 2) (1 / 2) := by
  simp only [zipfAccept, rpow_half_exp, floor_two]
  have h1 : ((2 : ℝ) - 1) = 1 := by norm_num
  rw [h1, Real.rpow_one, Real.rpow_one]
  constructor
  · norm_num
  · norm_num

theorem zipfLoop_half : zipfLoop usHalf 3 2 0 1 = some 2 := by
  rw [show (1 : ℕ) = 0 + 1 from rfl, zipfLoop]
  have hu : usHalf (2 * 0) = 1 / 2 := rfl
  have hv : usHalf (2 * 0 + 1) = 1 / 2 := rfl
  rw [hu, hv, if_pos zipfAccept_half, rpow_half_exp, floor_two]

theorem computeZipf_half : computeIterativeZipfian usHalf 3 2 1 = some 2 := by
  rw [computeIterativeZipfian, if_neg (by norm_num : ¬ (3 : ℤ) ≤ 1),
    zipfLoop_half]

theorem getZipf_half : getZipfianRand usHalf 1 3 2 1 = some 2 := by
  rw [getZipfianRand, show ((3 : ℤ) - 1 + 1) = 3 by norm_num, computeZipf_half]
  rfl

/-! ## Claims -/

/-- C1: for every `lo ≤ hi` and every shape parameter valid for the chosen
distribution (`pe > 0` exponential, `pg ≥ 2` gaussian, `1.001 ≤ s ≤ 1000`
zipfian), the value returned by that sampler lies in the closed integer
interval `[lo, hi]`. -/
theorem C1_samples_in_range (lo hi : ℤ) (pe pg s u : ℝ) (us vs : ℕ → ℝ)
    (fuel : ℕ) (rg rz : ℤ)
    (hrange : lo ≤ hi)
    (hpe : 0 < pe) (hu0 : 0 ≤ u) (hu1 : u < 1)
    (hpg : 2 ≤ pg)
    (hs1 : 1.001 ≤ s) (hs2 : s ≤ 1000)
    (hvs : ∀ i, 0 < vs i ∧ vs i < 1)
    (hg : getGaussianRand us lo hi pg fuel = some rg)
    (hz : getZipfianRand vs lo hi s fuel = some rz) :
    getExponentialRand u lo hi pe ∈ Set.Icc lo hi ∧
    rg ∈ Set.Icc lo hi ∧ rz ∈ Set.Icc lo hi := by
  refine ⟨?_, ?_, ?_⟩
  · have hmem := expRand_mem (ne_of_gt hpe) hu0 hu1
    exact rangeMap_mem hrange hmem.1 hmem.2
  · simp only [getGaussianRand] at hg
    obtain ⟨stdev, hloop, hval⟩ := Option.map_eq_some'.mp hg
    obtain ⟨j, hj0, hall, hacc, hst⟩ := gaussianLoop_eq_some hloop
    have hb := not_gaussReject_iff.mp hacc
    have hmem : (stdev + pg) / (pg * 2) ∈ Set.Ico (0 : ℝ) 1 := by
      rw [hst]
      exact gaussRand_mem hb.1 hb.2
    rw [← hval]
    exact rangeMap_mem hrange hmem.1 hmem.2
  · simp only [getZipfianRand] at hz
    obtain ⟨x, hcz, hval⟩ := Option.map_eq_some'.mp hz
    rw [computeIterativeZipfian] at hcz
    by_cases hn : hi - lo + 1 ≤ 1
    · rw [if_pos hn] at hcz
      have hx : (1 : ℤ) = x := Option.some_inj.mp hcz
      rw [Set.mem_Icc]
      omega
    · rw [if_neg hn] at hcz
      obtain ⟨j, hj0, hall, hacc, hxeq⟩ := zipfLoop_eq_some hcz
      have hb := zipfAccept_rank_bounds hs1 (hvs (2 * j)).1 (hvs (2 * j)).2 hacc
      have h1 : 1 ≤ x := by
        rw [hxeq]
        exact hb.1
      have h2 : x ≤ hi - lo + 1 := by
        rw [hxeq]
        exact hb.2
      rw [Set.mem_Icc]
      omega

/-- C1 witness: concrete instantiation at `[1, 3]` with the constant
uniform stream `1/2`. -/
theorem C1_samples_in_range_witness :
    getExponentialRand 0 1 3 (5 / 2) ∈ Set.Icc (1 : ℤ) 3 ∧
    (2 : ℤ) ∈ Set.Icc (1 : ℤ) 3 ∧ (2 : ℤ) ∈ Set.Icc (1 : ℤ) 3 :=
  C1_samples_in_range 1 3 (5 / 2) 2 2 0 usHalf usHalf 1 2 2
    (by norm_num) (by norm_num) (by norm_num) (by norm_num) (by norm_num)
    (by norm_num) (by norm_num)
    (fun i => ⟨by norm_num [usHalf], by norm_num [usHalf]⟩)
    getGaussianRand_usHalf_13 getZipf_half

/-- C4: for `n = hi - lo + 1 ≥ 2` and `s ∈ [1.001, 1000]`, a successful
run of the Devroye rejection loop accepts at the first iteration `k` whose
draws `u = us (2k)`, `v = us (2k+1)` pass the acceptance test (all earlier
iterations rejected, both uniforms redrawn), the accepted rank
`x = ⌊u ^ (-1/(s-1))⌋` always lies in `[1, n]` (never clamped), and the
returned value is `lo - 1 + x`. -/
theorem C4_zipfian_devroye (us : ℕ → ℝ) (lo hi n : ℤ) (s : ℝ) (fuel : ℕ)
    (x : ℤ)
    (hneq : n = hi - lo + 1) (hn : 2 ≤ n)
    (hs1 : 1.001 ≤ s) (hs2 : s ≤ 1000)
    (hus : ∀ i, 0 < us i ∧ us i < 1)
    (hx : computeIterativeZipfian us n s fuel = some x) :
    (∃ k, (∀ j, j < k → ¬ zipfAccept n s (us (2 * j)) (us (2 * j + 1))) ∧
      zipfAccept n s (us (2 * k)) (us (2 * k + 1)) ∧
      x = ⌊(us (2 * k)) ^ (-1 / (s - 1))⌋) ∧
    1 ≤ x ∧ x ≤ n ∧
    getZipfianRand us lo hi s fuel = some (lo - 1 + x) := by
  have hn1 : ¬ (n ≤ 1) := by omega
  rw [computeIterativeZipfian, if_neg hn1] at hx
  obtain ⟨j, hj0, hall, hacc, hxeq⟩ := zipfLoop_eq_some hx
  have hb := zipfAccept_rank_bounds hs1 (hus (2 * j)).1 (hus (2 * j)).2 hacc
  refine ⟨⟨j, fun i hij => hall i (by omega) hij, hacc, hxeq⟩, ?_, ?_, ?_⟩
  · rw [hxeq]
    exact hb.1
  · rw [hxeq]
    exact hb.2
  · rw [getZipfianRand, ← hneq, computeIterativeZipfian, if_neg hn1, hx]
    rfl

/-- C4 witness: concrete accepting run at `lo = 1`, `hi = 3`, `s = 2` with
the constant uniform stream `1/2`; the first iteration accepts rank 2. -/
theorem C4_zipfian_devroye_witness :
    (∃ k, (∀ j, j < k →
        ¬ zipfAccept 3 2 (usHalf (2 * j)) (usHalf (2 * j + 1))) ∧
      zipfAccept 3 2 (usHalf (2 * k)) (usHalf (2 * k + 1)) ∧
      (2 : ℤ) = ⌊(usHalf (2 * k)) ^ ((-1 : ℝ) / (2 - 1))⌋) ∧
    (1 : ℤ) ≤ 2 ∧ (2 : ℤ) ≤ 3 ∧
    getZipfianRand usHalf 1 3 2 1 = some (1 - 1 + 2) :=
  C4_zipfian_devroye usHalf 1 3 3 2 1 2
    (by norm_num) (by norm_num) (by norm_num) (by norm_num)
    (fun i => ⟨by norm_num [usHalf], by norm_num [usHalf]⟩)
    computeZipf_half

/-- C5: a successful gaussian sample comes from the first loop iteration
`k` whose Box-Muller transform `stdev = sqrt(-2 ln r1) * sin(2 pi r2)`
(with `r1 = 1 - us (2k)`, `r2 = 1 - us (2k+1)` in `(0, 1]`, both redrawn
on every rejection) satisfies `-p ≤ stdev < p`; the normalization
`(stdev + p) / (p * 2)` lies in `[0, 1)` and is mapped through the range
mapper. -/
theorem C5_gaussian_boxmuller (us : ℕ → ℝ) (lo hi : ℤ) (p : ℝ) (fuel : ℕ)
    (r : ℤ)
    (hus : ∀ i, 0 ≤ us i ∧ us i < 1)
    (hr : getGaussianRand us lo hi p fuel = some r) :
    ∃ k, (∀ j, j < k → gaussReject p (gaussStdevAt us j)) ∧
      ¬ gaussReject p (gaussStdevAt us k) ∧
      (-p ≤ gaussStdevAt us k ∧ gaussStdevAt us k < p) ∧
      gaussStdevAt us k =
        Real.sqrt (-2 * Real.log (1 - us (2 * k))) *
          Real.sin (2 * Real.pi * (1 - us (2 * k + 1))) ∧
      (0 < 1 - us (2 * k) ∧ 1 - us (2 * k) ≤ 1) ∧
      (0 < 1 - us (2 * k + 1) ∧ 1 - us (2 * k + 1) ≤ 1) ∧
      (gaussStdevAt us k + p) / (p * 2) ∈ Set.Ico (0 : ℝ) 1 ∧
      r = lo + dtrunc (((hi - lo + 1 : ℤ) : ℝ) *
        ((gaussStdevAt us k + p) / (p * 2))) := by
  simp only [getGaussianRand] at hr
  obtain ⟨stdev, hloop, hval⟩ := Option.map_eq_some'.mp hr
  obtain ⟨j, hj0, hall, hacc, hst⟩ := gaussianLoop_eq_some hloop
  have hb := not_gaussReject_iff.mp hacc
  refine ⟨j, fun i hij => hall i (by omega) hij, hacc, hb, rfl,
    ⟨by linarith [(hus (2 * j)).2], by linarith [(hus (2 * j)).1]⟩,
    ⟨by linarith [(hus (2 * j + 1)).2], by linarith [(hus (2 * j + 1)).1]⟩,
    gaussRand_mem hb.1 hb.2, ?_⟩
  rw [← hval, hst]

/-- C5 witness: concrete accepting run at `lo = hi = 1`, `p = 2` with the
constant uniform stream `1/2` (the first iteration accepts `stdev = 0`). -/
theorem C5_gaussian_boxmuller_witness :
    ∃ k, (∀ j, j < k → gaussReject 2 (gaussStdevAt usHalf j)) ∧
      ¬ gaussReject 2 (gaussStdevAt usHalf k) ∧
      (-2 ≤ gaussStdevAt usHalf k ∧ gaussStdevAt usHalf k < 2) ∧
      gaussStdevAt usHalf k =
        Real.sqrt (-2 * Real.log (1 - usHalf (2 * k))) *
          Real.sin (2 * Real.pi * (1 - usHalf (2 * k + 1))) ∧
      (0 < 1 - usHalf (2 * k) ∧ 1 - usHalf (2 * k) ≤ 1) ∧
      (0 < 1 - usHalf (2 * k + 1) ∧ 1 - usHalf (2 * k + 1) ≤ 1) ∧
      (gaussStdevAt usHalf k + 2) / (2 * 2) ∈ Set.Ico (0 : ℝ) 1 ∧
      (1 : ℤ) = 1 + dtrunc ((((1 : ℤ) - 1 + 1 : ℤ) : ℝ) *
        ((gaussStdevAt usHalf k + 2) / (2 * 2))) :=
  C5_gaussian_boxmuller usHalf 1 1 2 1 1
    (fun i => ⟨by norm_num [usHalf], by norm_num [usHalf]⟩)
    getGaussianRand_usHalf_11

/-- C6: the exponential sampler uses exactly one uniform draw (the entry
point feeds it only the first draw of the freshly seeded state) and no
rejection loop; with `cut = exp(-p)` and `uniform = 1 - u ∈ (0, 1]` it
computes `rand = -ln(cut + (1-cut)*uniform) / p`, which lies in `[0, 1)`
for every `p > 0`, and maps it as `lo + ⌊(hi - lo + 1) * rand⌋`. -/
theorem C6_exponential_single_draw (u : ℝ) (lo hi : ℤ) (p : ℝ)
    (er : RandomState → ℝ × RandomState) (e : ℕ) (g : RandomState)
    (hp : 0 < p) (hu0 : 0 ≤ u) (hu1 : u < 1) (hlh : lo ≤ hi) :
    0 < 1 - u ∧ 1 - u ≤ 1 ∧
    -Real.log (Real.exp (-p) + (1 - Real.exp (-p)) * (1 - u)) / p ∈
      Set.Ico (0 : ℝ) 1 ∧
    getExponentialRand u lo hi p =
      lo + ⌊((hi - lo + 1 : ℤ) : ℝ) *
        (-Real.log (Real.exp (-p) + (1 - Real.exp (-p)) * (1 - u)) / p)⌋ ∧
    random_exponential er (some e) g lo hi p =
      .ok (getExponentialRand ((er (seedState e)).1) lo hi p) := by
  have hmem := expRand_mem (ne_of_gt hp) hu0 hu1
  refine ⟨by linarith, by linarith, hmem, ?_, rfl⟩
  show lo + dtrunc (((hi - lo + 1 : ℤ) : ℝ) *
      (-Real.log (Real.exp (-p) + (1 - Real.exp (-p)) * (1 - u)) / p)) = _
  rw [dtrunc_of_nonneg]
  apply mul_nonneg _ hmem.1
  have h : (0 : ℤ) ≤ hi - lo + 1 := by omega
  exact_mod_cast h

/-- C6 witness: concrete instantiation at `u = 0`, `[1, 3]`, `p = 1`. -/
theorem C6_exponential_single_draw_witness :
    0 < 1 - (0 : ℝ) ∧ 1 - (0 : ℝ) ≤ 1 ∧
    -Real.log (Real.exp (-1) + (1 - Real.exp (-1)) * (1 - 0)) / 1 ∈
      Set.Ico (0 : ℝ) 1 ∧
    getExponentialRand 0 1 3 1 =
      1 + ⌊(((3 : ℤ) - 1 + 1 : ℤ) : ℝ) *
        (-Real.log (Real.exp (-1) + (1 - Real.exp (-1)) * (1 - 0)) / 1)⌋ ∧
    random_exponential erHalf (some 0) ⟨0, 0, 0⟩ 1 3 1 =
      .ok (getExponentialRand ((erHalf (seedState 0)).1) 1 3 1) :=
  C6_exponential_single_draw 0 1 3 1 erHalf 0 ⟨0, 0, 0⟩
    (by norm_num) (by norm_num) (by norm_num) (by norm_num)

/-- C7: with `lo = hi = m` each of the three samplers can only return `m`:
the exponential sampler returns `m` for every nonzero parameter, a
gaussian sample is `m` for every parameter, and the zipfian sampler takes
the degenerate `n ≤ 1` branch (already with zero loop fuel) and returns
`m` for any `s`. -/
theorem C7_min_eq_max (u : ℝ) (us vs : ℕ → ℝ) (m : ℤ) (pe pg s : ℝ)
    (fuel : ℕ) (r : ℤ)
    (hpe : pe ≠ 0) (hu0 : 0 ≤ u) (hu1 : u < 1) :
    getExponentialRand u m m pe = m ∧
    (getGaussianRand us m m pg fuel = some r → r = m) ∧
    computeIterativeZipfian vs (m - m + 1) s 0 = some 1 ∧
    getZipfianRand vs m m s fuel = some m := by
  refine ⟨?_, ?_, ?_, ?_⟩
  · have hmem := expRand_mem hpe hu0 hu1
    have h : getExponentialRand u m m pe ∈ Set.Icc m m :=
      rangeMap_mem (le_refl m) hmem.1 hmem.2
    rw [Set.mem_Icc] at h
    omega
  · intro hr
    simp only [getGaussianRand] at hr
    obtain ⟨stdev, hloop, hval⟩ := Option.map_eq_some'.mp hr
    obtain ⟨j, hj0, hall, hacc, hst⟩ := gaussianLoop_eq_some hloop
    have hb := not_gaussReject_iff.mp hacc
    have hmem : (stdev + pg) / (pg * 2) ∈ Set.Ico (0 : ℝ) 1 := by
      rw [hst]
      exact gaussRand_mem hb.1 hb.2
    have h : m + dtrunc (((m - m + 1 : ℤ) : ℝ) * ((stdev + pg) / (pg * 2))) ∈
        Set.Icc m m := rangeMap_mem (le_refl m) hmem.1 hmem.2
    rw [← hval]
    rw [Set.mem_Icc] at h
    show m + dtrunc (((m - m + 1 : ℤ) : ℝ) * ((stdev + pg) / (pg * 2))) = m
    omega
  · rw [computeIterativeZipfian, if_pos (by omega : m - m + 1 ≤ 1)]
  · rw [getZipfianRand, computeIterativeZipfian,
      if_pos (by omega : m - m + 1 ≤ 1)]
    show some (m - 1 + 1) = some m
    have h : m - 1 + 1 = m := by omega
    rw [h]

/-- C7 witness: concrete instantiation at `m = 7`. -/
theorem C7_min_eq_max_witness :
    getExponentialRand 0 7 7 1 = 7 ∧
    (getGaussianRand usHalf 7 7 2 1 = some 7 → (7 : ℤ) = 7) ∧
    computeIterativeZipfian usHalf ((7 : ℤ) - 7 + 1) 2 0 = some 1 ∧
    getZipfianRand usHalf 7 7 2 1 = some 7 :=
  C7_min_eq_max 0 usHalf usHalf 7 1 2 2 1 7
    (by norm_num) (by norm_num) (by norm_num)

/-- C8: seeding splits the entropy word into three 16-bit state words
taken from its low-order bits (bits 0-15, 16-31, 32-47), and an
unavailable entropy source is a fatal `SeedingFailed` error with no state
produced. -/
theorem C8_seeding (e : ℕ) :
    initRandomState none = .error RandErr.seedingFailed ∧
    initRandomState (some e) = .ok (seedState e) ∧
    (seedState e).x0 = e % 2 ^ 16 ∧
    (seedState e).x1 = (e >>> 16) % 2 ^ 16 ∧
    (seedState e).x2 = (e >>> 32) % 2 ^ 16 ∧
    (seedState e).x0 < 2 ^ 16 ∧ (seedState e).x1 < 2 ^ 16 ∧
    (seedState e).x2 < 2 ^ 16 := by
  have hmask : ∀ n : ℕ, n &&& 0xFFFF = n % 2 ^ 16 := by
    intro n
    have h := Nat.and_pow_two_sub_one_eq_mod n 16
    norm_num at h ⊢
    exact h
  refine ⟨rfl, rfl, hmask e, hmask _, hmask _, ?_, ?_, ?_⟩
  · show e &&& 0xFFFF < 2 ^ 16
    rw [hmask]
    exact Nat.mod_lt _ (by norm_num)
  · show (e >>> 16) &&& 0xFFFF < 2 ^ 16
    rw [hmask]
    exact Nat.mod_lt _ (by norm_num)
  · show (e >>> 32) &&& 0xFFFF < 2 ^ 16
    rw [hmask]
    exact Nat.mod_lt _ (by norm_num)

/-- C9: every entry point first overwrites the single shared global state
with freshly seeded entropy before sampling: the result never depends on
the prior value of the global state, and when entropy is available the
sample is computed from the draw stream of the freshly seeded state
(`seedState e`), not from any sequence left by a previous call. -/
theorem C9_fresh_global_state (er : RandomState → ℝ × RandomState)
    (ent : Option ℕ) (e : ℕ) (g g2 : RandomState) (lo hi : ℤ) (p : ℝ)
    (fuel : ℕ) :
    random_exponential er ent g lo hi p =
      random_exponential er ent g2 lo hi p ∧
    random_gaussian er ent g lo hi p fuel =
      random_gaussian er ent g2 lo hi p fuel ∧
    random_zipfian er ent g lo hi p fuel =
      random_zipfian er ent g2 lo hi p fuel ∧
    random_exponential er (some e) g lo hi p =
      .ok (getExponentialRand (streamOf er (seedState e) 0) lo hi p) ∧
    random_gaussian er (some e) g lo hi p fuel =
      .ok (getGaussianRand (streamOf er (seedState e)) lo hi p fuel) ∧
    random_zipfian er (some e) g lo hi p fuel =
      (if p < 1.001 ∨ p > 1000.0 then .error RandErr.invalidParameter
       else .ok (getZipfianRand (streamOf er (seedState e)) lo hi p fuel)) := by
  refine ⟨rfl, rfl, rfl, rfl, rfl, ?_⟩
  by_cases hc : p < 1.001 ∨ p > 1000.0
  · rw [random_zipfian, if_pos hc, if_pos hc]
  · rw [random_zipfian, if_neg hc, if_neg hc]
    rfl

/-- C10: for `hi < lo` and any `s ∈ [1.001, 1000]`, `random_zipfian`
raises no error and returns `lo`: `n = hi - lo + 1 ≤ 1` takes the
degenerate branch of `computeIterativeZipfian`, which returns rank 1, so
the result is `lo - 1 + 1 = lo`, a value greater than `hi`. -/
theorem C10_zipfian_min_gt_max (er : RandomState → ℝ × RandomState) (e : ℕ)
    (g : RandomState) (lo hi : ℤ) (s : ℝ) (fuel : ℕ)
    (h : hi < lo) (hs1 : 1.001 ≤ s) (hs2 : s ≤ 1000.0) :
    hi - lo + 1 ≤ 1 ∧
    computeIterativeZipfian (streamOf er (seedState e)) (hi - lo + 1) s fuel =
      some 1 ∧
    random_zipfian er (some e) g lo hi s fuel = .ok (some lo) := by
  have hn : hi - lo + 1 ≤ 1 := by omega
  refine ⟨hn, ?_, ?_⟩
  · rw [computeIterativeZipfian, if_pos hn]
  · rw [random_zipfian, if_neg (by push_neg; exact ⟨hs1, hs2⟩)]
    show Except.ok (getZipfianRand (streamOf er (seedState e)) lo hi s fuel) = _
    rw [getZipfianRand, computeIterativeZipfian, if_pos hn]
    show Except.ok (some (lo - 1 + 1)) = _
    have heq : lo - 1 + 1 = lo := by omega
    rw [heq]

/-- C10 witness: concrete instantiation at `lo = 5 > hi = 3`, `s = 2`. -/
theorem C10_zipfian_min_gt_max_witness :
    (3 : ℤ) - 5 + 1 ≤ 1 ∧
    computeIterativeZipfian (streamOf erHalf (seedState 0)) ((3 : ℤ) - 5 + 1)
      2 0 = some 1 ∧
    random_zipfian erHalf (some 0) ⟨0, 0, 0⟩ 5 3 2 0 = .ok (some 5) :=
  C10_zipfian_min_gt_max erHalf 0 ⟨0, 0, 0⟩ 5 3 2 0
    (by norm_num) (by norm_num) (by norm_num)

/-- C2 counterexample: with `lb = 5 > ub = 3` and a valid zipfian
parameter, `random_zipfian` does not fail with `InvalidRange`; it
succeeds and returns 5. -/
theorem C2_counterexample :
    random_zipfian erHalf (some 0) ⟨0, 0, 0⟩ 5 3 2 1 = .ok (some 5) ∧
    random_zipfian erHalf (some 0) ⟨0, 0, 0⟩ 5 3 2 1 ≠
      .error RandErr.invalidRange := by
  have h : random_zipfian erHalf (some 0) ⟨0, 0, 0⟩ 5 3 2 1 = .ok (some 5) := by
    rw [random_zipfian,
      if_neg (by norm_num : ¬ ((2 : ℝ) < 1.001 ∨ (2 : ℝ) > 1000.0))]
    show Except.ok (getZipfianRand (streamOf erHalf (seedState 0)) 5 3 2 1) = _
    rw [getZipfianRand, computeIterativeZipfian,
      if_pos (by norm_num : (3 : ℤ) - 5 + 1 ≤ 1)]
    show Except.ok (some ((5 : ℤ) - 1 + 1)) = _
    norm_num
  refine ⟨h, ?_⟩
  rw [h]
  intro hc
  exact Except.noConfusion hc

/-- C2 amended: none of the three operations validates `lb ≤ ub` or ever
reports `InvalidRange`.  With `ub < lb` (and entropy available) the
exponential and gaussian entry points still proceed to sample and return
`ok`, and `random_zipfian` with a valid `s` returns `ok lb` through the
degenerate `n ≤ 1` branch; for every entropy input, none of the three
returns an `InvalidRange` error. -/
theorem C2_amended_no_range_check (er : RandomState → ℝ × RandomState)
    (e : ℕ) (g : RandomState) (lo hi : ℤ) (p s : ℝ) (fuel : ℕ)
    (h : hi < lo) :
    (∃ r, random_exponential er (some e) g lo hi p = .ok r) ∧
    (∃ o, random_gaussian er (some e) g lo hi p fuel = .ok o) ∧
    (1.001 ≤ s → s ≤ 1000.0 →
      random_zipfian er (some e) g lo hi s fuel = .ok (some lo)) ∧
    (∀ ent, random_exponential er ent g lo hi p ≠ .error RandErr.invalidRange) ∧
    (∀ ent, random_gaussian er ent g lo hi p fuel ≠
      .error RandErr.invalidRange) ∧
    (∀ ent, random_zipfian er ent g lo hi s fuel ≠
      .error RandErr.invalidRange) := by
  refine ⟨⟨_, rfl⟩, ⟨_, rfl⟩, ?_, ?_, ?_, ?_⟩
  · intro hs1 hs2
    rw [random_zipfian, if_neg (by push_neg; exact ⟨hs1, hs2⟩)]
    show Except.ok (getZipfianRand (streamOf er (seedState e)) lo hi s fuel) = _
    rw [getZipfianRand, computeIterativeZipfian,
      if_pos (by omega : hi - lo + 1 ≤ 1)]
    show Except.ok (some (lo - 1 + 1)) = _
    have heq : lo - 1 + 1 = lo := by omega
    rw [heq]
  · intro ent
    cases ent with
    | none =>
      intro hc
      exact RandErr.noConfusion (Except.error.inj hc)
    | some a =>
      intro hc
      exact Except.noConfusion hc
  · intro ent
    cases ent with
    | none =>
      intro hc
      exact RandErr.noConfusion (Except.error.inj hc)
    | some a =>
      intro hc
      exact Except.noConfusion hc
  · intro ent
    rw [random_zipfian]
    by_cases hc : s < 1.001 ∨ s > 1000.0
    · rw [if_pos hc]
      intro hcon
      exact RandErr.noConfusion (Except.error.inj hcon)
    · rw [if_neg hc]
      cases ent with
      | none =>
        intro hcon
        exact RandErr.noConfusion (Except.error.inj hcon)
      | some a =>
        intro hcon
        exact Except.noConfusion hcon

/-- C2 amended witness: concrete instantiation at `lb = 5 > ub = 3`. -/
theorem C2_amended_no_range_check_witness :
    (∃ r, random_exponential erHalf (some 0) ⟨0, 0, 0⟩ 5 3 1 = .ok r) ∧
    (∃ o, random_gaussian erHalf (some 0) ⟨0, 0, 0⟩ 5 3 1 1 = .ok o) ∧
    ((1.001 : ℝ) ≤ 2 → (2 : ℝ) ≤ 1000.0 →
      random_zipfian erHalf (some 0) ⟨0, 0, 0⟩ 5 3 2 1 = .ok (some 5)) ∧
    (∀ ent, random_exponential erHalf ent ⟨0, 0, 0⟩ 5 3 1 ≠
      .error RandErr.invalidRange) ∧
    (∀ ent, random_gaussian erHalf ent ⟨0, 0, 0⟩ 5 3 1 1 ≠
      .error RandErr.invalidRange) ∧
    (∀ ent, random_zipfian erHalf ent ⟨0, 0, 0⟩ 5 3 2 1 ≠
      .error RandErr.invalidRange) :=
  C2_amended_no_range_check erHalf 0 ⟨0, 0, 0⟩ 5 3 1 2 1 (by norm_num)

/-- C3 counterexample: the gaussian entry point performs no parameter
validation: with `parameter = 1.9 < 2.0` (just outside the documented
domain) it does not fail with `InvalidParameter` but succeeds and returns
a sample. -/
theorem C3_counterexample :
    (19 / 10 : ℝ) < 2 ∧
    random_gaussian erHalf (some 0) ⟨0, 0, 0⟩ 1 1 (19 / 10) 1 =
      .ok (some 1) := by
  refine ⟨by norm_num, ?_⟩
  show Except.ok (getGaussianRand (streamOf erHalf (seedState 0)) 1 1
    (19 / 10) 1) = _
  rw [streamOf_erHalf_eq]
  have hp : ¬ gaussReject (19 / 10 : ℝ) 0 := by
    rw [not_gaussReject_iff]
    constructor
    · norm_num
    · norm_num
  rw [show (1 : ℕ) = 0 + 1 from rfl, getGaussianRand_usHalf hp]
  have hprod : (((1 : ℤ) - 1 + 1 : ℤ) : ℝ) *
      ((0 + 19 / 10) / (19 / 10 * 2)) = 1 / 2 := by
    norm_num
  rw [hprod, dtrunc_of_nonneg (by norm_num), floor_half]
  norm_num

/-- C3 amended: for the zipfian entry point the parameter domain edges
`1.001` and `1000.0` pass validation and proceed to sampling, while any
`s` outside `[1.001, 1000.0]` fails with `InvalidParameter` before any
seeding or sampling (for every entropy input); the gaussian entry point,
however, performs no parameter validation at all: every parameter
(including `2.0` and values just below it) proceeds to sampling without
an `InvalidParameter` error. -/
theorem C3_amended_param_validation (er : RandomState → ℝ × RandomState)
    (e : ℕ) (ent : Option ℕ) (g : RandomState) (lo hi : ℤ) (p s : ℝ)
    (fuel : ℕ) :
    random_zipfian er (some e) g lo hi 1.001 fuel =
      .ok (getZipfianRand (streamOf er (seedState e)) lo hi 1.001 fuel) ∧
    random_zipfian er (some e) g lo hi 1000.0 fuel =
      .ok (getZipfianRand (streamOf er (seedState e)) lo hi 1000.0 fuel) ∧
    (s < 1.001 ∨ 1000.0 < s →
      random_zipfian er ent g lo hi s fuel = .error RandErr.invalidParameter) ∧
    random_gaussian er (some e) g lo hi p fuel =
      .ok (getGaussianRand (streamOf er (seedState e)) lo hi p fuel) := by
  refine ⟨?_, ?_, ?_, rfl⟩
  · rw [random_zipfian,
      if_neg (by norm_num : ¬ ((1.001 : ℝ) < 1.001 ∨ (1.001 : ℝ) > 1000.0))]
    rfl
  · rw [random_zipfian,
      if_neg (by norm_num : ¬ ((1000.0 : ℝ) < 1.001 ∨ (1000.0 : ℝ) > 1000.0))]
    rfl
  · intro hout
    rw [random_zipfian, if_pos hout]

/-- C3 amended witness: concrete instantiation with `s = 1/2` outside the
zipfian domain and gaussian parameter exactly `2.0`. -/
theorem C3_amended_param_validation_witness :
    random_zipfian erHalf (some 0) ⟨0, 0, 0⟩ 1 3 1.001 1 =
      .ok (getZipfianRand (streamOf erHalf (seedState 0)) 1 3 1.001 1) ∧
    random_zipfian erHalf (some 0) ⟨0, 0, 0⟩ 1 3 1000.0 1 =
      .ok (getZipfianRand (streamOf erHalf (seedState 0)) 1 3 1000.0 1) ∧
    ((1 / 2 : ℝ) < 1.001 ∨ (1000.0 : ℝ) < 1 / 2 →
      random_zipfian erHalf (some 0) ⟨0, 0, 0⟩ 1 3 (1 / 2) 1 =
        .error RandErr.invalidParameter) ∧
    random_gaussian erHalf (some 0) ⟨0, 0, 0⟩ 1 3 2 1 =
      .ok (getGaussianRand (streamOf erHalf (seedState 0)) 1 3 2 1) :=
  C3_amended_param_validation erHalf 0 (some 0) ⟨0, 0, 0⟩ 1 3 2 (1 / 2) 1
